import Mathlib

/-!
Verification of the interval-accounting core of a single-user time-clock
application (`app.py`).

Timestamps and durations are modelled as integers (seconds); a `timedelta`
is an integer number of seconds, a `datetime` within one day is its
timestamp.  The current instant (`now_local()` in the source) is passed as
an explicit `now : Int` parameter, since the source evaluates it at query
time and never stores it.

The persisted store (the SQLite `stamps` table) is modelled as a list of
`Stamp` rows; the autoincrement primary key becomes an explicit `id`
field, the `ts_local` column an integer timestamp, and the `day` column an
integer key standing for the ISO calendar date.
-/

namespace Badgeuse

/-- `DAILY_TARGET = timedelta(hours=8)`, in seconds. -/
def DAILY_TARGET : Int := 8 * 3600

/-- Embedding of `pairwise_intervals(timestamps)` from `app.py`:
the loop `for i in range(0, n, 2)` pairs `timestamps[i]` with
`timestamps[i+1]` when it exists and with `now_local()` otherwise, and
keeps the pair only when `end > start`.  Consuming the list two elements
at a time reproduces the loop exactly. -/
def pairwise_intervals (timestamps : List Int) (now : Int) : List (Int × Int) :=
  match timestamps with
  | [] => []
  | [start] => if start < now then [(start, now)] else []
  | start :: next :: rest =>
      (if start < next then [(start, next)] else []) ++ pairwise_intervals rest now

/-- Embedding of `worked_duration_today(stamps)`:
`sum((end - start for start, end in pairwise_intervals(stamps)), timedelta())`. -/
def worked_duration_today (stamps : List Int) (now : Int) : Int :=
  ((pairwise_intervals stamps now).map (fun p => p.2 - p.1)).sum

/-- Embedding of `eta_after_third_stamp(stamps)`: `None` when fewer than
three stamps; otherwise `morning = max(0, t2 - t1)`,
`remaining = DAILY_TARGET - morning`, result `t3` when `remaining <= 0`
and `t3 + remaining` otherwise. -/
def eta_after_third_stamp (stamps : List Int) : Option Int :=
  match stamps with
  | t1 :: t2 :: t3 :: _ =>
      let morning := max 0 (t2 - t1)
      let remaining := DAILY_TARGET - morning
      if remaining ≤ 0 then some t3 else some (t3 + remaining)
  | _ => none

/-- Python `f"{n:02d}"` for a natural number: decimal digits, left-padded
with `0` to width two. -/
def pad2 (n : Nat) : String :=
  if n < 10 then "0" ++ toString n else toString n

/-- Embedding of `fmt_td(td)`: truncate to whole seconds (the model is
already integral), take the sign and absolute value, split into hours and
minutes, and render `f"{sign}{h:02d}h{m:02d}"`. -/
def fmt_td (td : Int) : String :=
  let sign := if td < 0 then "-" else ""
  let a := td.natAbs
  let h := a / 3600
  let m := a % 3600 / 60
  sign ++ pad2 h ++ "h" ++ pad2 m

/-- The pairing rule as the specification words it: group consecutive
pairs `(t[0],t[1]), (t[2],t[3]), …`; when the length is odd the final
unpaired timestamp is paired with the current instant; a pair whose end is
not strictly after its start is discarded.  Stated by direct indexing so
that it can be compared with the loop-shaped source embedding. -/
def spec_pairing (ts : List Int) (now : Int) : List (Int × Int) :=
  (List.range ((ts.length + 1) / 2)).filterMap fun k =>
    match ts[2 * k]?, ts[2 * k + 1]? with
    | some s, some e => if s < e then some (s, e) else none
    | some s, none => if s < now then some (s, now) else none
    | none, _ => none

/-- Sum of the differences `t[1]-t[0] + t[3]-t[2] + …` over consecutive
pairs, as the specification words it for even-length lists. -/
def pair_diff_sum : List Int → Int
  | [] => 0
  | [_] => 0
  | a :: b :: rest => (b - a) + pair_diff_sum rest

theorem filterMap_ext {α β : Type} (f g : α → Option β) (l : List α)
    (h : ∀ a, f a = g a) : l.filterMap f = l.filterMap g := by
  rw [funext h]

theorem spec_pairing_nil (now : Int) : spec_pairing [] now = [] := rfl

theorem spec_pairing_single (a now : Int) :
    spec_pairing [a] now = if a < now then [(a, now)] else [] := by
  by_cases h : a < now <;>
    simp [spec_pairing, h, List.range_succ, List.filterMap_cons]

theorem spec_pairing_cons_cons (a b now : Int) (rest : List Int) :
    spec_pairing (a :: b :: rest) now
      = (if a < b then [(a, b)] else []) ++ spec_pairing rest now := by
  have hlen : ((a :: b :: rest).length + 1) / 2 = (rest.length + 1) / 2 + 1 := by
    simp only [List.length_cons]
    omega
  unfold spec_pairing
  rw [hlen, List.range_succ_eq_map, List.filterMap_cons, List.filterMap_map]
  have hfun : ∀ k : Nat,
      ((fun k =>
        match (a :: b :: rest)[2 * k]?, (a :: b :: rest)[2 * k + 1]? with
        | some s, some e => if s < e then some (s, e) else none
        | some s, none => if s < now then some (s, now) else none
        | none, _ => none) ∘ Nat.succ) k
      = (fun k =>
        match rest[2 * k]?, rest[2 * k + 1]? with
        | some s, some e => if s < e then some (s, e) else none
        | some s, none => if s < now then some (s, now) else none
        | none, _ => none) k := by
    intro k
    have h1 : 2 * Nat.succ k = 2 * k + 1 + 1 := by omega
    simp only [Function.comp_apply, h1, List.getElem?_cons_succ]
  rw [filterMap_ext _ _ _ hfun]
  by_cases hab : a < b <;> simp [hab]

/-- Claim C1 (pairing rule): `pairwise_intervals` produces exactly the
intervals the specification describes — consecutive pairs
`(t[0],t[1]), (t[2],t[3]), …`, with the final unpaired timestamp of an
odd-length list paired with the current instant `now`, and every pair
whose end is not strictly after its start discarded. -/
theorem pairwise_intervals_eq_spec_pairing :
    ∀ (ts : List Int) (now : Int), pairwise_intervals ts now = spec_pairing ts now
  | [], now => by rw [pairwise_intervals, spec_pairing_nil]
  | [a], now => by rw [pairwise_intervals, spec_pairing_single]
  | a :: b :: rest, now => by
      rw [pairwise_intervals, spec_pairing_cons_cons,
        pairwise_intervals_eq_spec_pairing rest now]

/-- Every interval the pairing produces has its end strictly after its
start (the non-positive ones are discarded by the `end > start` guard). -/
theorem pairwise_intervals_pos :
    ∀ (ts : List Int) (now : Int), ∀ p ∈ pairwise_intervals ts now, p.1 < p.2
  | [], _ => by simp [pairwise_intervals]
  | [a], now => by
      intro p hp
      rw [pairwise_intervals] at hp
      split at hp
      · next h => simp only [List.mem_singleton] at hp; subst hp; exact h
      · simp at hp
  | a :: b :: rest, now => by
      intro p hp
      rw [pairwise_intervals] at hp
      rcases List.mem_append.1 hp with h | h
      · split at h
        · next hab => simp only [List.mem_singleton] at h; subst h; exact hab
        · simp at h
      · exact pairwise_intervals_pos rest now p h

theorem worked_duration_today_nonneg (ts : List Int) (now : Int) :
    0 ≤ worked_duration_today ts now := by
  apply List.sum_nonneg
  intro x hx
  rcases List.mem_map.1 hx with ⟨p, hp, rfl⟩
  have := pairwise_intervals_pos ts now p hp
  omega

/-- Claim C2 (worked duration): `worked_duration_today` is the sum of
`end - start` over the intervals of the pairing rule (the open interval
included, since `pairwise_intervals` receives the same `now`), and the
sum is never negative, whatever the input list. -/
theorem worked_duration_today_spec (ts : List Int) (now : Int) :
    worked_duration_today ts now
        = ((pairwise_intervals ts now).map (fun p => p.2 - p.1)).sum
      ∧ 0 ≤ worked_duration_today ts now :=
  ⟨rfl, worked_duration_today_nonneg ts now⟩

/-- Claim C3 (finish-time projection): `eta_after_third_stamp` returns
`none` on fewer than three stamps; on `t1 :: t2 :: t3 :: _` it computes
`morning = max 0 (t2 - t1)`, `remaining = DAILY_TARGET - morning`, and
returns `t3` itself when `remaining ≤ 0` and `t3 + remaining`
otherwise. -/
theorem eta_after_third_stamp_spec (ts : List Int) :
    (ts.length < 3 → eta_after_third_stamp ts = none)
    ∧ (∀ t1 t2 t3 rest, ts = t1 :: t2 :: t3 :: rest →
        eta_after_third_stamp ts =
          some (if DAILY_TARGET - max 0 (t2 - t1) ≤ 0 then t3
                else t3 + (DAILY_TARGET - max 0 (t2 - t1)))) := by
  constructor
  · intro h
    match ts, h with
    | [], _ => rfl
    | [_], _ => rfl
    | [_, _], _ => rfl
    | _ :: _ :: _ :: _, h => simp only [List.length_cons] at h; omega
  · rintro t1 t2 t3 rest rfl
    by_cases h : DAILY_TARGET - max 0 (t2 - t1) ≤ 0 <;>
      simp [eta_after_third_stamp, h]

/-- Witness for C3, spec scenario C: stamps at 08:00, 16:30, 17:00 (in
seconds of day); the morning interval alone covers the 8-hour target, so
the projection is the third stamp itself. -/
theorem eta_after_third_stamp_spec_witness :
    eta_after_third_stamp [28800, 59400, 61200] = some 61200 := by
  have h := (eta_after_third_stamp_spec [28800, 59400, 61200]).2
    28800 59400 61200 [] rfl
  rw [h]
  norm_num [DAILY_TARGET]

/-- Claim C10 (projection depends only on the first three stamps): two
lists of length at least three that agree on their first three elements
get the same projection. -/
theorem eta_first_three :
    ∀ (l1 l2 : List Int), 3 ≤ l1.length → 3 ≤ l2.length →
      l1.take 3 = l2.take 3 →
      eta_after_third_stamp l1 = eta_after_third_stamp l2
  | a :: b :: c :: _, a2 :: b2 :: c2 :: _, _, _, h => by
      simp only [List.take_succ_cons, List.take_zero, List.cons.injEq] at h
      obtain ⟨rfl, rfl, rfl, -⟩ := h
      simp [eta_after_third_stamp]
  | [], _, h1, _, _ => by simp at h1
  | [_], _, h1, _, _ => by simp at h1
  | [_, _], _, h1, _, _ => by
      simp only [List.length_cons, List.length_nil] at h1; omega
  | _ :: _ :: _ :: _, [], _, h2, _ => by simp at h2
  | _ :: _ :: _ :: _, [_], _, h2, _ => by simp at h2
  | _ :: _ :: _ :: _, [_, _], _, h2, _ => by
      simp only [List.length_cons, List.length_nil] at h2; omega

/-- Witness for C10: a fourth stamp does not change the projection. -/
theorem eta_first_three_witness :
    eta_after_third_stamp [0, 3600, 7200, 99999]
      = eta_after_third_stamp [0, 3600, 7200] :=
  eta_first_three _ _ (by decide) (by decide) (by decide)

/-- The duration formatting as the amended specification words it: floor
the absolute duration to whole minutes `M`; hours are `M / 60` and
minutes `M % 60`, each rendered zero-padded to two digits, with a leading
minus sign exactly for negative durations. -/
def fmt_spec_padded (td : Int) : String :=
  let M := td.natAbs / 60
  (if td < 0 then "-" else "") ++ pad2 (M / 60) ++ "h" ++ pad2 (M % 60)

/-- Claim C5, counterexample: the source formats the hour field with
`f"{h:02d}"`, so a worked duration of 4 hours renders as `"04h00"`, not
`"4h00"` as the claim states. -/
theorem fmt_td_four_hours :
    fmt_td (4 * 3600) = "04h00" ∧ fmt_td (4 * 3600) ≠ "4h00" := by
  constructor <;> decide

/-- Claim C5, amended: `fmt_td` renders a duration as
`{hours:02d}h{minutes:02d}` — hours zero-padded to two digits like the
minutes — flooring to the minute, with a leading minus sign exactly when
the duration is negative; 4 hours formats as `"04h00"`. -/
theorem fmt_td_eq_spec (td : Int) : fmt_td td = fmt_spec_padded td := by
  have h1 : td.natAbs / 3600 = td.natAbs / 60 / 60 := by omega
  have h2 : td.natAbs % 3600 / 60 = td.natAbs / 60 % 60 := by omega
  simp only [fmt_td, fmt_spec_padded]
  rw [h1, h2]

theorem worked_nil (now : Int) : worked_duration_today [] now = 0 := rfl

theorem worked_single (a now : Int) :
    worked_duration_today [a] now = if a < now then now - a else 0 := by
  unfold worked_duration_today
  rw [pairwise_intervals]
  by_cases h : a < now <;> simp [h]

theorem worked_cons_cons (a b now : Int) (rest : List Int) :
    worked_duration_today (a :: b :: rest) now
      = (if a < b then b - a else 0) + worked_duration_today rest now := by
  unfold worked_duration_today
  rw [pairwise_intervals]
  by_cases h : a < b <;> simp [h]

/-- Claim C4, counterexample: appending the stamp 5 — later than every
stamp of `[0]` — and evaluating at the same instant `now = 10` shrinks
the open interval `(0, 10)` to the closed interval `(0, 5)`: the worked
duration drops from 10 to 5, so appending a later event can decrease the
total. -/
theorem worked_append_decreases :
    (0 : Int) < 5 ∧ worked_duration_today [0] 10 = 10
      ∧ worked_duration_today [0, 5] 10 = 5 := by
  decide

/-- Claim C4, amended (monotonicity): appending an event that is later than
every event already in the list *and no earlier than the evaluation
instant `now`* never decreases the total worked duration computed at
`now`.  (Without `now ≤ t` the claim fails: on an odd-length list a new
final stamp before `now` truncates the open interval.) -/
theorem worked_append_later_mono :
    ∀ (ts : List Int) (t now : Int), (∀ x ∈ ts, x < t) → now ≤ t →
      worked_duration_today ts now ≤ worked_duration_today (ts ++ [t]) now
  | [], t, now, _, hnt => by
      rw [List.nil_append, worked_nil, worked_single, if_neg (by omega)]
  | [a], t, now, hall, hnt => by
      have hat : a < t := hall a (by simp)
      rw [List.cons_append, List.nil_append, worked_cons_cons, worked_nil,
        worked_single, if_pos hat]
      by_cases h : a < now <;> simp [h] <;> omega
  | a :: b :: rest, t, now, hall, hnt => by
      have ih := worked_append_later_mono rest t now
        (fun x hx => hall x (by simp [hx])) hnt
      rw [List.cons_append, List.cons_append, worked_cons_cons,
        worked_cons_cons]
      omega

/-- Witness for the amended C4: appending 7200 (later than all stamps,
not before `now = 7000`) does not decrease the total. -/
theorem worked_append_later_mono_witness :
    worked_duration_today [0, 3600] 7000
      ≤ worked_duration_today [0, 3600, 7200] 7000 :=
  worked_append_later_mono [0, 3600] 7200 7000 (by decide) (by decide)

/-- Claim C6, counterexample: `[0, 0]` is an even-length list sorted in
non-decreasing order, yet its single pair is discarded (`0 > 0` fails),
so the number of intervals is 0, not `n/2 = 1`. -/
theorem pairwise_count_ties :
    List.Chain' (· ≤ ·) [(0 : Int), 0] ∧ [(0 : Int), 0].length % 2 = 0
      ∧ (pairwise_intervals [0, 0] 5).length = 0
      ∧ [(0 : Int), 0].length / 2 = 1 := by
  refine ⟨?_, by decide, by decide, by decide⟩
  simp

/-- Claim C6, amended: for every even-length *strictly increasing* list,
the number of intervals is `n/2` and the worked duration is the sum of
the consecutive-pair differences `t[1]-t[0] + t[3]-t[2] + …` (with merely
non-decreasing order an equal pair is discarded, so the count can be
smaller). -/
theorem pairwise_count_even :
    ∀ (ts : List Int) (now : Int), ts.length % 2 = 0 →
      List.Chain' (· < ·) ts →
      (pairwise_intervals ts now).length = ts.length / 2
      ∧ worked_duration_today ts now = pair_diff_sum ts
  | [], now, _, _ => by
      exact ⟨rfl, rfl⟩
  | [a], now, h, _ => by simp at h
  | a :: b :: rest, now, h, hc => by
      have hrest : rest.length % 2 = 0 := by
        simp only [List.length_cons] at h; omega
      have hab : a < b := (List.chain'_cons.1 hc).1
      have hc2 : List.Chain' (· < ·) rest := (List.chain'_cons.1 hc).2.tail
      obtain ⟨ih1, ih2⟩ := pairwise_count_even rest now hrest hc2
      constructor
      · rw [pairwise_intervals, if_pos hab]
        simp only [List.length_append, List.length_cons, List.length_nil,
          ih1]
        omega
      · rw [worked_cons_cons, if_pos hab, ih2, pair_diff_sum]

/-- Witness for the amended C6: four strictly increasing stamps give two
intervals and the pairwise-difference sum. -/
theorem pairwise_count_even_witness :
    (pairwise_intervals [0, 3600, 7200, 10800] 99).length = 2
      ∧ worked_duration_today [0, 3600, 7200, 10800] 99
          = pair_diff_sum [0, 3600, 7200, 10800] := by
  have h := pairwise_count_even [0, 3600, 7200, 10800] 99 (by decide)
    (by norm_num [List.chain'_cons])
  exact ⟨h.1.trans (by decide), h.2⟩

/-- Claim C7, counterexample: for the odd-length list `[10]` evaluated at
`now = 5` (not after the last stamp) the open pair is discarded —
`pairwise_intervals` returns no interval at all, so no interval ends at
`now`, and re-evaluating at the later instant 7 leaves the total at 0,
not strictly larger. -/
theorem pairwise_open_stale :
    [(10 : Int)].length % 2 = 1 ∧ pairwise_intervals [10] 5 = []
      ∧ worked_duration_today [10] 5 = 0
      ∧ worked_duration_today [10] 7 = 0 ∧ (5 : Int) < 7 := by
  decide

/-- Claim C7, amended: for every odd-length list whose last stamp is
strictly before the evaluation instant `now`, the last interval returned
by `pairwise_intervals` ends exactly at `now`, and re-evaluating at any
strictly later instant strictly increases the total worked duration. -/
theorem pairwise_open_interval :
    ∀ (ts : List Int) (tl now now2 : Int), ts.length % 2 = 1 →
      ts.getLast? = some tl → tl < now → now < now2 →
      (pairwise_intervals ts now).getLast? = some (tl, now)
      ∧ worked_duration_today ts now < worked_duration_today ts now2
  | [], _, _, _, h, _, _, _ => by simp at h
  | [a], tl, now, now2, _, hlast, h1, h2 => by
      simp only [List.getLast?_singleton, Option.some.injEq] at hlast
      subst hlast
      refine ⟨?_, ?_⟩
      · rw [pairwise_intervals, if_pos h1]
        rfl
      · rw [worked_single, worked_single, if_pos h1,
          if_pos (lt_trans h1 h2)]
        omega
  | a :: b :: rest, tl, now, now2, hodd, hlast, h1, h2 => by
      have hro : rest.length % 2 = 1 := by
        simp only [List.length_cons] at hodd; omega
      have hlast2 : rest.getLast? = some tl := by
        match rest, hro with
        | r :: rs, _ =>
          rw [List.getLast?_cons_cons, List.getLast?_cons_cons] at hlast
          exact hlast
      obtain ⟨ih1, ih2⟩ := pairwise_open_interval rest tl now now2 hro
        hlast2 h1 h2
      refine ⟨?_, ?_⟩
      · rw [pairwise_intervals]
        have hne : pairwise_intervals rest now ≠ [] := by
          intro e
          rw [e] at ih1
          simp at ih1
        rw [List.getLast?_append_of_ne_nil _ hne]
        exact ih1
      · rw [worked_cons_cons, worked_cons_cons]
        omega

/-- Witness for the amended C7: three stamps, `now = 10000` after the
last stamp; the open interval ends at `now` and the total grows strictly
at the later instant 10800. -/
theorem pairwise_open_interval_witness :
    (pairwise_intervals [0, 3600, 7200] 10000).getLast? = some (7200, 10000)
      ∧ worked_duration_today [0, 3600, 7200] 10000
          < worked_duration_today [0, 3600, 7200] 10800 :=
  pairwise_open_interval [0, 3600, 7200] 7200 10000 10800 (by decide)
    (by decide) (by decide) (by decide)

/-- A row of the `stamps` table: the autoincrement primary key `id`, the
`day` key (standing for the ISO calendar date string), the `ts_local`
timestamp (an integer; chronological order models the lexicographic
order of same-offset ISO strings), and the `source` / `note` columns. -/
structure Stamp where
  id : Nat
  day : Int
  ts : Int
  source : String
  note : Option String
deriving DecidableEq, Repr

/-- One fold step of taking the row with maximal `ts_local`; a strictly
larger timestamp replaces the current best, so ties keep the earlier
row (SQLite leaves the tie order unspecified; one max row is selected). -/
def pickLater (best s : Stamp) : Stamp :=
  if best.ts < s.ts then s else best

/-- Embedding of `SELECT id FROM stamps WHERE day=? ORDER BY ts_local
DESC LIMIT 1`: among the day's rows, the one with the maximum
timestamp, or `none` when the day has no rows. -/
def lastStamp (d : Int) (db : List Stamp) : Option Stamp :=
  match db.filter (fun s => s.day == d) with
  | [] => none
  | c :: cs => some (cs.foldl pickLater c)

/-- Embedding of `delete_last_stamp(day_iso)`: look up the day's row
with the maximum timestamp; if there is one, `DELETE FROM stamps WHERE
id=?` removes the row carrying that primary key; otherwise nothing
happens. -/
def delete_last_stamp (d : Int) (db : List Stamp) : List Stamp :=
  match lastStamp d db with
  | none => db
  | some e => db.eraseP (fun s => s.id == e.id)

theorem foldl_pickLater_mem (c : Stamp) (cs : List Stamp) :
    cs.foldl pickLater c ∈ c :: cs := by
  induction cs generalizing c with
  | nil => simp [List.foldl]
  | cons x cs ih =>
    rw [List.foldl_cons]
    rcases List.mem_cons.1 (ih (pickLater c x)) with h | h
    · rw [h]
      unfold pickLater
      by_cases hcx : c.ts < x.ts <;> simp [hcx]
    · exact List.mem_cons_of_mem _ (List.mem_cons_of_mem _ h)

theorem foldl_pickLater_ge (c : Stamp) (cs : List Stamp) :
    ∀ s ∈ c :: cs, s.ts ≤ (cs.foldl pickLater c).ts := by
  induction cs generalizing c with
  | nil =>
    intro s hs
    rcases List.mem_cons.1 hs with rfl | hs
    · exact le_refl _
    · simp at hs
  | cons x cs ih =>
    intro s hs
    rw [List.foldl_cons]
    have hc : c.ts ≤ (pickLater c x).ts := by
      unfold pickLater; by_cases h : c.ts < x.ts <;> simp [h]; omega
    have hx : x.ts ≤ (pickLater c x).ts := by
      unfold pickLater; by_cases h : c.ts < x.ts <;> simp [h]; omega
    have hbest := ih (pickLater c x) (pickLater c x) (List.mem_cons_self _ _)
    rcases List.mem_cons.1 hs with rfl | hs2
    · exact le_trans hc hbest
    · rcases List.mem_cons.1 hs2 with rfl | hs3
      · exact le_trans hx hbest
      · exact ih (pickLater c x) s (List.mem_cons_of_mem _ hs3)

/-- Claim C9 (manual deletion): on a store whose primary keys are unique,
`delete_last_stamp` is a no-op when the day has no rows; otherwise it
removes exactly one row `e` of that day carrying the day's maximum
timestamp — the store splits as `l1 ++ e :: l2` and the result is
`l1 ++ l2`, so every row of every other day, and every other row of the
same day, is kept unchanged and in order. -/
theorem delete_last_stamp_spec (d : Int) (db : List Stamp)
    (hid : (db.map Stamp.id).Nodup) :
    (db.filter (fun s => s.day == d) = [] → delete_last_stamp d db = db)
    ∧ (db.filter (fun s => s.day == d) ≠ [] →
        ∃ e l1 l2, e ∈ db ∧ e.day = d
          ∧ (∀ s ∈ db, s.day = d → s.ts ≤ e.ts)
          ∧ db = l1 ++ e :: l2
          ∧ delete_last_stamp d db = l1 ++ l2) := by
  constructor
  · intro h
    unfold delete_last_stamp lastStamp
    rw [h]
  · intro hne
    obtain ⟨c, cs, hf⟩ := List.exists_cons_of_ne_nil hne
    set e := cs.foldl pickLater c with he
    have hmem_f : e ∈ c :: cs := foldl_pickLater_mem c cs
    have hmax_f : ∀ s ∈ c :: cs, s.ts ≤ e.ts := foldl_pickLater_ge c cs
    rw [← hf] at hmem_f hmax_f
    have hmem : e ∈ db := (List.mem_filter.1 hmem_f).1
    have hday : e.day = d := by
      have h2 := (List.mem_filter.1 hmem_f).2
      simpa using h2
    have hmax : ∀ s ∈ db, s.day = d → s.ts ≤ e.ts := by
      intro s hs hsd
      exact hmax_f s (List.mem_filter.2 ⟨hs, by simp [hsd]⟩)
    have hdel : delete_last_stamp d db = db.eraseP (fun s => s.id == e.id) := by
      unfold delete_last_stamp lastStamp
      rw [hf]
    have hpe : (fun s => s.id == e.id) e = true := by simp
    obtain ⟨a, l1, l2, hl1, hpa, hsplit, herase⟩ :=
      @List.exists_of_eraseP Stamp (fun s => s.id == e.id) db e hmem hpe
    have ha_mem : a ∈ db := by rw [hsplit]; simp
    have haid : a.id = e.id := by simpa using hpa
    have hae : a = e := List.inj_on_of_nodup_map hid ha_mem hmem haid
    refine ⟨e, l1, l2, hmem, hday, hmax, ?_, ?_⟩
    · rw [hsplit, hae]
    · rw [hdel, herase]

/-- Witness for C9: a three-row store, two rows on day 1; deleting the
last stamp of day 1 removes the row with the larger timestamp and keeps
the rest. -/
theorem delete_last_stamp_spec_witness :
    delete_last_stamp 1
        [⟨0, 1, 10, "btn", none⟩, ⟨1, 1, 20, "btn", none⟩,
          ⟨2, 2, 5, "btn", none⟩]
      = [⟨0, 1, 10, "btn", none⟩, ⟨2, 2, 5, "btn", none⟩] := by
  have h := (delete_last_stamp_spec 1
      [⟨0, 1, 10, "btn", none⟩, ⟨1, 1, 20, "btn", none⟩,
        ⟨2, 2, 5, "btn", none⟩] (by decide)).2 (by decide)
  decide

/-- The local clock as the manual-entry branch sees it: the calendar
date (`day`, the key under which stamps are filed) and the second of
that day.  `datetime.replace(hour=hh, minute=mm, second=0,
microsecond=0)` keeps `day` and sets the second-of-day; comparing the
result with `now` compares the seconds since both share the date. -/
structure LocalTime where
  day : Int
  sec : Int

/-- Embedding of the module-level manual-entry branch: build
`t = now.replace(hour=hh, minute=mm, second=0, microsecond=0)`; an
out-of-range hour or minute raises `ValueError`, swallowed by the bare
`except` (nothing written); a future `t` (`t > now_local()`) shows an
error and writes nothing; otherwise one row is inserted with
`day = t.date()`, the timestamp of `t`, source `"manual"` and the note.
`nextId` is the fresh autoincrement key. -/
def manual_entry (hh mm : Nat) (note : Option String) (now : LocalTime)
    (nextId : Nat) (db : List Stamp) : List Stamp :=
  let tsec : Int := hh * 3600 + mm * 60
  if 24 ≤ hh ∨ 60 ≤ mm then db
  else if now.sec < tsec then db
  else db ++ [⟨nextId, now.day, now.day * 86400 + tsec, "manual", note⟩]

/-- Claim C8 (future-dated manual entry): a valid `HH:MM` entry whose
timestamp is strictly after `now` at submission time is rejected and the
store is unchanged; an entry at or before `now` appends exactly one
`"manual"` row for today's date. -/
theorem manual_entry_spec (hh mm : Nat) (note : Option String)
    (now : LocalTime) (nextId : Nat) (db : List Stamp)
    (hhh : hh < 24) (hmm : mm < 60) :
    (now.sec < (hh : Int) * 3600 + (mm : Int) * 60 →
        manual_entry hh mm note now nextId db = db)
    ∧ ((hh : Int) * 3600 + (mm : Int) * 60 ≤ now.sec →
        manual_entry hh mm note now nextId db
          = db ++ [⟨nextId, now.day,
              now.day * 86400 + ((hh : Int) * 3600 + (mm : Int) * 60),
              "manual", note⟩]) := by
  have hv : ¬ (24 ≤ hh ∨ 60 ≤ mm) := by omega
  constructor
  · intro h
    simp only [manual_entry]
    rw [if_neg hv, if_pos h]
  · intro h
    simp only [manual_entry]
    rw [if_neg hv, if_neg (not_lt.2 h)]

/-- Witness for C8: at `now` = second 40000 of day 100, the entry 23:59
(second 86340, in the future) is rejected and the empty store stays
empty, while the entry 08:30 (second 30600, in the past) is inserted as
a `"manual"` row. -/
theorem manual_entry_spec_witness :
    manual_entry 23 59 none ⟨100, 40000⟩ 5 [] = []
    ∧ manual_entry 8 30 none ⟨100, 40000⟩ 5 []
        = [⟨5, 100, 8670600, "manual", none⟩] := by
  constructor
  · have h := (manual_entry_spec 23 59 none ⟨100, 40000⟩ 5 []
      (by decide) (by decide)).1 (by norm_num)
    simpa using h
  · have h := (manual_entry_spec 8 30 none ⟨100, 40000⟩ 5 []
      (by decide) (by decide)).2 (by norm_num)
    simpa using h

end Badgeuse
